import Mathlib

/-!  Verification of binconvert 0.1.0 (src/convert.py): the layout
descriptor compiler `gen_format_string` and the endianness transcoder
`convert`, embedded shallowly.

Modelling conventions:
* The source targets Python 2: `/` on integers is floor division
  (`Int.fdiv`), `%` is Python's modulo (`Int.emod`, which agrees with
  Python for a positive modulus), `n * s` on a string yields `n`
  concatenated copies for positive `n` and `""` otherwise, and `None`
  and `""` are falsy.
* struct format strings are modeled over the primitive codes of the
  data model: fixed-width integers `b B h H i I l L q Q`, floats `f d`,
  chars `c` and raw byte runs `s`.  Sizes are the standard sizes
  (the mode selected by the `=`, `<` and `>` tags the source attaches);
  the source's untagged `struct.calcsize` calls use native sizes,
  which agree with the standard ones for these codes up to
  platform-dependent alignment, which is outside this model.
* Numeric field values are modeled as the unsigned integer denoted by
  the field's bytes; a signed code changes the Python value only by a
  constant offset of 2^(8w), which repacking at the same width undoes,
  so byte-level behavior is unaffected.  IEEE float fields are likewise
  treated at byte level.
* File I/O is abstracted to in-memory byte buffers: `convert` takes
  the bytes read from the source file and returns the bytes written to
  the destination file; `none` models a raised struct.error.
-/

namespace BinConvert

/-- A byte order, 'little' or 'big' (src/convert.py line 184). -/
inductive ByteOrder
  | little
  | big
deriving DecidableEq, Repr

/-- The opposite byte order. -/
def ByteOrder.flip : ByteOrder → ByteOrder
  | .little => .big
  | .big => .little

/-- Standard-mode item size of a single struct format code, restricted to
the primitive codes of the data model; `none` models struct.error for an
unrecognized code. -/
def codeSize : Char → Option Nat
  | 'c' => some 1
  | 'b' => some 1
  | 'B' => some 1
  | 's' => some 1
  | 'h' => some 2
  | 'H' => some 2
  | 'i' => some 4
  | 'I' => some 4
  | 'l' => some 4
  | 'L' => some 4
  | 'q' => some 8
  | 'Q' => some 8
  | 'f' => some 4
  | 'd' => some 8
  | _ => none

/-- One fixed-width field of a parsed format string: its byte width,
tagged by whether struct treats it as a multi-byte numeric value (so the
byte-order tag applies) or as raw bytes copied through ('c' and 's'). -/
inductive Field
  | num (width : Nat)
  | raw (width : Nat)
deriving DecidableEq, Repr

/-- Byte width of a field. -/
def Field.width : Field → Nat
  | .num w => w
  | .raw w => w

/-- The fields denoted by one struct code under a repeat count, as struct
interprets them: for 's' the count is the byte length of a single raw
field, for 'c' it gives `count` one-byte raw fields, and for every other
known code `count` numeric fields of that code's width. -/
def itemFields (count : Nat) (c : Char) : Option (List Field) :=
  if c = 's' then some [Field.raw count]
  else if c = 'c' then some (List.replicate count (Field.raw 1))
  else (codeSize c).map fun w => List.replicate count (Field.num w)

/-- Parser for flat struct format strings (standard mode, no byte-order
tag): a run of decimal digits accumulates a repeat count applying to the
next code.  `acc = none` means no digits pending.  A trailing count with
no code, or an unknown code, is struct.error (`none`). -/
def parseFmtAux : List Char → Option Nat → Option (List Field)
  | [], none => some []
  | [], some _ => none
  | ch :: rest, acc =>
    if ch.isDigit then
      parseFmtAux rest (some (acc.getD 0 * 10 + (ch.toNat - 48)))
    else
      match itemFields (acc.getD 1) ch with
      | some fs => (parseFmtAux rest none).map (fs ++ ·)
      | none => none

/-- Parse a flat format string into its field list. -/
def parseFmt (s : String) : Option (List Field) :=
  parseFmtAux s.data none

/-- Total byte width of a field list. -/
def fieldsSize (fs : List Field) : Nat :=
  (fs.map Field.width).sum

/-- struct.calcsize on a flat format string, standard mode. -/
def calcsize (s : String) : Option Nat :=
  (parseFmt s).map fieldsSize

/-- Python's `str.split(sep)` on a character separator; the result is
never empty. -/
def pySplit (sep : Char) : List Char → List (List Char)
  | [] => [[]]
  | c :: rest =>
    match pySplit sep rest with
    | [] => [[]]
    | g :: gs => if c = sep then [] :: g :: gs else (c :: g) :: gs

/-- Python's `n * s` on a string, for a natural number of copies. -/
def pyStrMulN : Nat → String → String
  | 0, _ => ""
  | k + 1, s => s ++ pyStrMulN k s

/-- Python's `n * s` on a string: `n` copies when `n` is positive and the
empty string otherwise. -/
def pyStrMul (n : Int) (s : String) : String :=
  pyStrMulN n.toNat s

/-- Substitution of `str.format` with a single positional argument: every
occurrence of the placeholder `\x7b0\x7d` is replaced by `repl`.  (On the
format strings the compiler builds no other brace can occur.) -/
def fmtSubst (repl : List Char) : List Char → List Char
  | [] => []
  | [c] => [c]
  | [c, d] => [c, d]
  | c :: d :: e :: rest =>
    if c = '{' ∧ d = '0' ∧ e = '}' then repl ++ fmtSubst repl rest
    else c :: fmtSubst repl (d :: e :: rest)

/-- Python's `s.replace('*', repl)`: every `'*'` is replaced. -/
def starSubst (repl : List Char) : List Char → List Char
  | [] => []
  | c :: rest => (if c = '*' then repl else [c]) ++ starSubst repl rest

/-- Decimal digits to a number; `none` when empty or a non-digit occurs. -/
def digitsToNatAux : List Char → Nat → Option Nat
  | [], acc => some acc
  | c :: cs, acc =>
    if c.isDigit then digitsToNatAux cs (acc * 10 + (c.toNat - 48)) else none

/-- Parse a nonempty all-digit character list as a number. -/
def digitsToNat? (ds : List Char) : Option Nat :=
  if ds = [] then none else digitsToNatAux ds 0

/-- Python's `int()` on the count strings of the mini-language: an
optional leading '-' followed by decimal digits; `none` models the
ValueError raised on anything else.  (Python's int() also tolerates
surrounding whitespace, a '+' sign and underscores; those forms never
appear in descriptors and are modeled as errors.) -/
def pyInt? (s : String) : Option Int :=
  match s.data with
  | '-' :: ds => (digitsToNat? ds).map (fun n => -(n : Int))
  | ds => (digitsToNat? ds).map (fun n => (n : Int))

/-- Python truthiness of the `special_pattern` variable: `None` and the
empty string are falsy. -/
def spTruthy : Option String → Bool
  | none => false
  | some p => p != ""

/-- The exceptions gen_format_string can raise.  The first three are the
struct.error instances it raises itself (lines 112, 139, 153); the rest
model exceptions escaping from library calls. -/
inductive PyErr
  | multipleWildcards
  | divisionError
  | sizeMismatch (expected got : Nat)
  | unknownPattern
  | valueError
  | indexError
  | zeroDivision
deriving DecidableEq, Repr

/-- The loop state of gen_format_string (lines 97-101): the format string
built so far, the size consumed so far, and the recorded wildcard pattern
and index. -/
structure LoopSt where
  fmt : String
  cumsize : Nat
  specialPattern : Option String
  specialIndex : Option Nat
deriving DecidableEq, Repr

/-- The body of the token loop (lines 103-125) after the split on ':',
given the pattern part and the optional count part. -/
def genStepParts (i : Nat) (st : LoopSt) (pattern : String)
    (count? : Option String) : Except PyErr LoopSt :=
  match count? with
  | none =>
    match calcsize pattern with
    | none => .error .unknownPattern
    | some w =>
      .ok { st with cumsize := st.cumsize + w, fmt := st.fmt ++ pattern }
  | some countStr =>
    match countStr.data.getLast? with
    | none => .error .indexError
    | some last =>
      if last = '*' then
        if spTruthy st.specialPattern then .error .multipleWildcards
        else
          .ok { st with specialPattern := some pattern,
                        specialIndex := some i,
                        fmt := st.fmt ++ "\x7b0\x7d" }
      else
        match pyInt? countStr with
        | none => .error .valueError
        | some count =>
          match calcsize (pyStrMul count pattern) with
          | none => .error .unknownPattern
          | some w =>
            .ok { st with cumsize := st.cumsize + w,
                          fmt := st.fmt ++ pyStrMul count pattern }

/-- One iteration of the token loop on a raw token string, starting with
`pattern_info = pattern_info.split(':')` (line 103). -/
def genStep (i : Nat) (st : LoopSt) (tok : String) : Except PyErr LoopSt :=
  match pySplit ':' tok.data with
  | [] => .error .indexError
  | [p] => genStepParts i st (String.mk p) none
  | p :: c :: _ => genStepParts i st (String.mk p) (some (String.mk c))

/-- The token loop of gen_format_string, `i` the index of the next token. -/
def genLoop (i : Nat) (st : LoopSt) : List String → Except PyErr LoopSt
  | [] => .ok st
  | t :: ts =>
    match genStep i st t with
    | .error e => .error e
    | .ok st2 => genLoop (i + 1) st2 ts

/-- The final sanity check (lines 150-156).  The source computes
`struct.calcsize('=' + fmt)`; the `=` tag only selects standard sizes,
which is the model's only mode, so it is dropped here.  The truthiness
test `if size and size != fmt_size` skips the check when size is 0. -/
def genCheck (fmt : String) (formats : List String) (size : Option Nat) :
    Except PyErr (String × List String) :=
  match calcsize fmt with
  | none => .error .unknownPattern
  | some fmtSize =>
    match size with
    | some sz =>
      if sz ≠ 0 ∧ sz ≠ fmtSize then .error (.sizeMismatch sz fmtSize)
      else .ok (fmt, formats)
    | none => .ok (fmt, formats)

/-- The tail of gen_format_string after the token loop (lines 127-156):
wildcard resolution against the remaining size, the in-place expansion of
the wildcard count, and the final size check. -/
def genFinish (formats : List String) (size : Option Nat) (expand : Bool)
    (st : LoopSt) : Except PyErr (String × List String) :=
  if spTruthy st.specialPattern then
    match size with
    | none => .ok (st.fmt, formats)
    | some sz =>
      let p := st.specialPattern.getD ""
      match calcsize p with
      | none => .error .unknownPattern
      | some chunksize =>
        if chunksize = 0 then .error .zeroDivision
        else
          let remaining : Int := (sz : Int) - (st.cumsize : Int)
          let count : Int := remaining.fdiv (chunksize : Int)
          if remaining % (chunksize : Int) ≠ 0 then
            .error .divisionError
          else
            let result := pyStrMul count p
            let fmt2 := String.mk (fmtSubst result.data st.fmt.data)
            let formats2 :=
              if expand then
                match st.specialIndex with
                | some si =>
                  formats.set si (String.mk
                    (starSubst (toString count).data
                      ((formats.getD si "").data)))
                | none => formats
              else formats
            genCheck fmt2 formats2 (some sz)
  else genCheck st.fmt formats size

/-- gen_format_string (lines 50-156).  The second component of a normal
result is the token list as the caller sees it after the call: the source
returns the very list object it was passed, after the in-place assignment
`formats[special_index] = formats[special_index].replace('*', str(count))`
when `expand` is set and a wildcard was resolved. -/
def gen_format_string (formats : List String) (size : Option Nat)
    (expand : Bool) : Except PyErr (String × List String) :=
  if formats = ["*"] then .ok ("*", formats)
  else
    match genLoop 0 ⟨"", 0, none, none⟩ formats with
    | .error e => .error e
    | .ok st => genFinish formats size expand st

/-- A buffer is a list of byte values (each < 256 for a real file). -/
abbrev Bytes := List Nat

/-- A value decoded by struct.unpack: a number for a numeric code, a byte
string for 'c' and 's'. -/
inductive Value
  | num (n : Nat)
  | str (bs : Bytes)
deriving DecidableEq, Repr

/-- The `w` little-endian bytes of `n`. -/
def natToBytesLE : Nat → Nat → Bytes
  | 0, _ => []
  | w + 1, n => n % 256 :: natToBytesLE w (n / 256)

/-- The number denoted by little-endian bytes. -/
def bytesToNatLE : Bytes → Nat
  | [] => 0
  | b :: bs => b + 256 * bytesToNatLE bs

/-- Decode one field's bytes under a byte-order tag, as struct.unpack
does: raw bytes pass through, numeric bytes are read in tag order. -/
def unpackField (o : ByteOrder) (f : Field) (bs : Bytes) : Value :=
  match f with
  | .raw _ => .str bs
  | .num _ =>
    match o with
    | .little => .num (bytesToNatLE bs)
    | .big => .num (bytesToNatLE bs.reverse)

/-- Encode one value under a byte-order tag, as struct.pack does; `none`
models struct.error for a value that does not fit the field. -/
def packField (o : ByteOrder) (f : Field) (v : Value) : Option Bytes :=
  match f, v with
  | .raw w, .str bs => if bs.length = w then some bs else none
  | .num w, .num n =>
    if n < 256 ^ w then
      some (match o with
        | .little => natToBytesLE w n
        | .big => (natToBytesLE w n).reverse)
    else none
  | .raw _, .num _ => none
  | .num _, .str _ => none

/-- Split a buffer into consecutive per-field chunks; `none` models the
struct.error raised when the buffer length does not match the format. -/
def splitFields : List Field → Bytes → Option (List Bytes)
  | [], [] => some []
  | [], _ :: _ => none
  | f :: fs, bs =>
    if f.width ≤ bs.length then
      (splitFields fs (bs.drop f.width)).map (bs.take f.width :: ·)
    else none

/-- struct.unpack of a whole buffer against a field list. -/
def structUnpack (o : ByteOrder) (fs : List Field) (bs : Bytes) :
    Option (List Value) :=
  (splitFields fs bs).map (List.zipWith (unpackField o) fs)

/-- struct.pack of a value sequence against a field list. -/
def structPack (o : ByteOrder) : List Field → List Value → Option Bytes
  | [], [] => some []
  | f :: fs, v :: vs =>
    match packField o f v, structPack o fs vs with
    | some bs, some rest => some (bs ++ rest)
    | _, _ => none
  | [], _ :: _ => none
  | _ :: _, [] => none

/-- The byte-order tags convert passes to struct (lines 211-216): the
first is the tag the input is unpacked with, the second the tag the
output is packed with.  `byteOrder` is the order to convert TO. -/
def fmtTags : ByteOrder → ByteOrder × ByteOrder
  | .little => (.big, .little)
  | .big => (.little, .big)

/-- The byte order of the input file as convert's docstring defines it
(lines 187-189): the opposite of the requested destination order. -/
def impliedSourceOrder (byteOrder : ByteOrder) : ByteOrder :=
  byteOrder.flip

/-- The core of convert (lines 196-225) on an in-memory buffer: resolve
the `*` fallback format to one 'c' per input byte, pick the pair of
complementary order tags, unpack the input bytes with the first tag and
pack the values with the second.  Reading the source file and writing the
destination file are abstracted to the argument and result buffers. -/
def convert (stream : Bytes) (byteOrder : ByteOrder) (fmt : String) :
    Option Bytes :=
  let fmt := if fmt = "*" then String.mk (List.replicate stream.length 'c')
             else fmt
  let tags := fmtTags byteOrder
  match parseFmt fmt with
  | none => none
  | some fields =>
    match structUnpack tags.1 fields stream with
    | none => none
    | some data => structPack tags.2 fields data

/-! ## Descriptor-level helpers used in the claim statements -/

/-- The pattern and optional count part of a raw token, as the split on
':' yields them (extra ':' parts are ignored, as the source ignores
them). -/
def tokParts (tok : String) : String × Option String :=
  match pySplit ':' tok.data with
  | [] => ("", none)
  | [p] => (String.mk p, none)
  | p :: c :: _ => (String.mk p, some (String.mk c))

/-- The pattern part of a token. -/
def tokPattern (tok : String) : String := (tokParts tok).1

/-- The count part of a token, when a ':' is present. -/
def tokCount (tok : String) : Option String := (tokParts tok).2

/-- A token takes the wildcard branch exactly when the last character of
its count part is '*' (line 110). -/
def isWildTok (tok : String) : Bool :=
  match tokCount tok with
  | some c => c.data.getLast? == some '*'
  | none => false

/-- A well-formed non-wildcard token: its pattern is a known format
string and its count part, when present, is a decimal numeral. -/
def validFixedTok (tok : String) : Prop :=
  (calcsize (tokPattern tok)).isSome ∧
  match tokCount tok with
  | none => True
  | some c => ∃ n : Nat, pyInt? c = some (n : Int) ∧
      c.data.getLast? ≠ some '*'

/-- The repeat count of a non-wildcard token (1 when omitted). -/
def tokCountVal (tok : String) : Nat :=
  match tokCount tok with
  | none => 1
  | some c => ((pyInt? c).getD 0).toNat

/-- The byte width of a token's pattern. -/
def tokWidth (tok : String) : Nat :=
  (calcsize (tokPattern tok)).getD 0

/-- The contribution of a non-wildcard token to the flat format string. -/
def tokExpansion (tok : String) : String :=
  match tokCount tok with
  | none => tokPattern tok
  | some c => pyStrMul ((pyInt? c).getD 0) (tokPattern tok)

/-- The flat format string of a wildcard-free token list. -/
def concatExp : List String → String
  | [] => ""
  | t :: ts => tokExpansion t ++ concatExp ts

/-- The summed byte size of a wildcard-free token list:
count * width(pattern) over its tokens. -/
def tokensSize (toks : List String) : Nat :=
  (toks.map fun t => tokCountVal t * tokWidth t).sum

/-- Modelled from the spec (section 4.2): the net effect it claims for
transcoding, namely a pure byte-order flip of every multi-byte numeric
field with raw fields copied unchanged. -/
def flipChunk (f : Field) (bs : Bytes) : Bytes :=
  match f with
  | .num _ => bs.reverse
  | .raw _ => bs

/-- Modelled from the spec (section 4.2): per-field byte-order flip of a
whole buffer. -/
def fieldFlip (fields : List Field) (bs : Bytes) : Option Bytes :=
  (splitFields fields bs).map fun cs => (List.zipWith flipChunk fields cs).flatten

/-! ## Byte-level lemmas -/

theorem bytesToNatLE_lt (bs : Bytes) (hb : ∀ b ∈ bs, b < 256) :
    bytesToNatLE bs < 256 ^ bs.length := by
  induction bs with
  | nil => simp [bytesToNatLE]
  | cons b rest ih =>
    have hb0 : b < 256 := hb b (List.mem_cons_self ..)
    have hr : bytesToNatLE rest < 256 ^ rest.length :=
      ih fun x hx => hb x (List.mem_cons_of_mem _ hx)
    simp only [bytesToNatLE, List.length_cons, pow_succ]
    omega

theorem natToBytesLE_bytesToNatLE (bs : Bytes) (hb : ∀ b ∈ bs, b < 256) :
    natToBytesLE bs.length (bytesToNatLE bs) = bs := by
  induction bs with
  | nil => rfl
  | cons b rest ih =>
    have hb0 : b < 256 := hb b (List.mem_cons_self ..)
    have h1 : (b + 256 * bytesToNatLE rest) % 256 = b := by omega
    have h2 : (b + 256 * bytesToNatLE rest) / 256 = bytesToNatLE rest := by
      omega
    simp only [List.length_cons, natToBytesLE, bytesToNatLE, h1, h2]
    exact congrArg (b :: ·) (ih fun x hx => hb x (List.mem_cons_of_mem _ hx))

theorem flipChunk_length (f : Field) (bs : Bytes) :
    (flipChunk f bs).length = bs.length := by
  cases f <;> simp [flipChunk]

theorem flipChunk_flipChunk (f : Field) (bs : Bytes) :
    flipChunk f (flipChunk f bs) = bs := by
  cases f <;> simp [flipChunk]

theorem flipChunk_mem (f : Field) (bs : Bytes) (x : Nat)
    (hx : x ∈ flipChunk f bs) : x ∈ bs := by
  cases f <;> simpa [flipChunk] using hx

/-- Unpacking a field with one order tag and repacking it with the
opposite tag reverses the bytes of a numeric field and copies a raw field
unchanged. -/
theorem packField_flip_unpackField (o : ByteOrder) (f : Field) (bs : Bytes)
    (hlen : bs.length = f.width) (hb : ∀ b ∈ bs, b < 256) :
    packField o.flip f (unpackField o f bs) = some (flipChunk f bs) := by
  cases f with
  | raw w =>
    have hw : bs.length = w := hlen
    simp [unpackField, packField, flipChunk, hw]
  | num w =>
    have hw : bs.length = w := hlen
    have hrev : ∀ b ∈ bs.reverse, b < 256 := fun b h => hb b (List.mem_reverse.mp h)
    cases o with
    | little =>
      have hlt : bytesToNatLE bs < 256 ^ w := by
        simpa [hw] using bytesToNatLE_lt bs hb
      have hrt : natToBytesLE w (bytesToNatLE bs) = bs := by
        simpa [hw] using natToBytesLE_bytesToNatLE bs hb
      simp [unpackField, packField, ByteOrder.flip, flipChunk, hlt, hrt]
    | big =>
      have hlt : bytesToNatLE bs.reverse < 256 ^ w := by
        have := bytesToNatLE_lt bs.reverse hrev
        simpa [hw] using this
      have hrt : natToBytesLE w (bytesToNatLE bs.reverse) = bs.reverse := by
        have := natToBytesLE_bytesToNatLE bs.reverse hrev
        simpa [hw] using this
      simp [unpackField, packField, ByteOrder.flip, flipChunk, hlt, hrt]

theorem splitFields_forall₂ (fs : List Field) (bs : Bytes) (cs : List Bytes)
    (h : splitFields fs bs = some cs) :
    List.Forall₂ (fun f c => (c : Bytes).length = Field.width f) fs cs := by
  induction fs generalizing bs cs with
  | nil =>
    cases bs with
    | nil =>
      have h2 : ([] : List Bytes) = cs := Option.some.inj h
      subst h2
      exact List.Forall₂.nil
    | cons b rest => exact Option.noConfusion h
  | cons f fs ih =>
    simp only [splitFields] at h
    split at h
    · rename_i hle
      cases hs : splitFields fs (bs.drop f.width) with
      | none => rw [hs] at h; exact Option.noConfusion h
      | some cs' =>
        rw [hs] at h
        have h3 := Option.some.inj h
        subst h3
        exact List.Forall₂.cons (by simp [List.length_take]; omega) (ih _ _ hs)
    · exact Option.noConfusion h

theorem splitFields_flatten_eq (fs : List Field) (bs : Bytes) (cs : List Bytes)
    (h : splitFields fs bs = some cs) : cs.flatten = bs := by
  induction fs generalizing bs cs with
  | nil =>
    cases bs with
    | nil =>
      have h2 : ([] : List Bytes) = cs := Option.some.inj h
      subst h2
      rfl
    | cons b rest => exact Option.noConfusion h
  | cons f fs ih =>
    simp only [splitFields] at h
    split at h
    · rename_i hle
      cases hs : splitFields fs (bs.drop f.width) with
      | none => rw [hs] at h; exact Option.noConfusion h
      | some cs' =>
        rw [hs] at h
        have h3 := Option.some.inj h
        subst h3
        simp [List.flatten_cons, ih _ _ hs]
    · exact Option.noConfusion h

theorem splitFields_mem (fs : List Field) (bs : Bytes) (cs : List Bytes)
    (h : splitFields fs bs = some cs) (c : Bytes) (hc : c ∈ cs) (x : Nat)
    (hx : x ∈ c) : x ∈ bs := by
  have hflat : cs.flatten = bs := splitFields_flatten_eq fs bs cs h
  rw [← hflat]
  exact List.mem_flatten.mpr ⟨c, hc, hx⟩

theorem splitFields_of_flatten (fs : List Field) (cs : List Bytes)
    (h : List.Forall₂ (fun f c => (c : Bytes).length = Field.width f) fs cs) :
    splitFields fs cs.flatten = some cs := by
  induction h with
  | nil => rfl
  | cons hfc hrest ih =>
    rename_i f c fs' cs'
    simp only [List.flatten_cons, splitFields]
    rw [if_pos (by simp [← hfc])]
    rw [← hfc, List.take_left, List.drop_left, ih]
    rfl

theorem splitFields_isSome (fs : List Field) (bs : Bytes)
    (hlen : bs.length = fieldsSize fs) : (splitFields fs bs).isSome := by
  induction fs generalizing bs with
  | nil =>
    cases bs with
    | nil => simp [splitFields]
    | cons b rest => simp [fieldsSize] at hlen
  | cons f fs ih =>
    have h2 : bs.length = f.width + fieldsSize fs := by
      simpa [fieldsSize] using hlen
    have hle : f.width ≤ bs.length := by omega
    have hdrop : (bs.drop f.width).length = fieldsSize fs := by
      rw [List.length_drop]; omega
    simp only [splitFields, if_pos hle]
    have := ih (bs.drop f.width) hdrop
    cases hs : splitFields fs (bs.drop f.width) with
    | none => rw [hs] at this; simp at this
    | some cs => simp [hs]

/-- Unpacking a chunked buffer with one tag and packing the values with
the opposite tag flips each numeric chunk. -/
theorem structPack_flip_unpack (o : ByteOrder) (fs : List Field)
    (cs : List Bytes)
    (h : List.Forall₂ (fun f c => (c : Bytes).length = Field.width f) fs cs)
    (hb : ∀ c ∈ cs, ∀ b ∈ c, b < 256) :
    structPack o.flip fs (List.zipWith (unpackField o) fs cs) =
      some (List.zipWith flipChunk fs cs).flatten := by
  induction h with
  | nil => rfl
  | cons hfc hrest ih =>
    rename_i f c fs' cs'
    have hc : ∀ b ∈ c, b < 256 := hb c (List.mem_cons_self ..)
    have hcs : ∀ c' ∈ cs', ∀ b ∈ c', b < 256 :=
      fun c' h' => hb c' (List.mem_cons_of_mem _ h')
    simp only [List.zipWith_cons_cons, structPack]
    rw [packField_flip_unpackField o f c hfc hc, ih hcs]
    rfl

theorem flip_flip (o : ByteOrder) : o.flip.flip = o := by cases o <;> rfl

theorem fmtTags_eq (o : ByteOrder) : fmtTags o = (o.flip, o) := by
  cases o <;> rfl

/-- convert on a parseable format is the per-field byte-order flip of the
spec, independently of the requested order. -/
theorem convert_eq_fieldFlip (o : ByteOrder) (fmt : String)
    (fields : List Field) (buf : Bytes) (hp : parseFmt fmt = some fields)
    (hb : ∀ b ∈ buf, b < 256) :
    convert buf o fmt = fieldFlip fields buf := by
  have hne : fmt ≠ "*" := by
    intro h; rw [h] at hp
    exact Option.noConfusion hp
  rw [convert]
  simp only [if_neg hne, hp, fmtTags_eq]
  rw [structUnpack]
  cases hs : splitFields fields buf with
  | none => simp [fieldFlip, hs]
  | some cs =>
    have h2 := splitFields_forall₂ fields buf cs hs
    have hbc : ∀ c ∈ cs, ∀ b ∈ c, b < 256 :=
      fun c hc b hbmem => hb b (splitFields_mem fields buf cs hs c hc b hbmem)
    have h4 := structPack_flip_unpack o.flip fields cs h2 hbc
    rw [flip_flip] at h4
    simp only [fieldFlip, hs, Option.map_some']
    exact h4

theorem forall₂_flipChunk (fs : List Field) (cs : List Bytes)
    (h : List.Forall₂ (fun f c => (c : Bytes).length = Field.width f) fs cs) :
    List.Forall₂ (fun f c => (c : Bytes).length = Field.width f) fs
      (List.zipWith flipChunk fs cs) := by
  induction h with
  | nil => exact List.Forall₂.nil
  | cons hfc hrest ih =>
    exact List.Forall₂.cons (by rw [flipChunk_length]; exact hfc) ih

theorem zipWith_flipChunk_sq (fs : List Field) (cs : List Bytes)
    (h : List.Forall₂ (fun f c => (c : Bytes).length = Field.width f) fs cs) :
    List.zipWith flipChunk fs (List.zipWith flipChunk fs cs) = cs := by
  induction h with
  | nil => rfl
  | cons hfc hrest ih =>
    simp only [List.zipWith_cons_cons, flipChunk_flipChunk, ih]

theorem zipWith_flipChunk_bound (fs : List Field) (cs : List Bytes)
    (hb : ∀ c ∈ cs, ∀ b ∈ c, b < 256) :
    ∀ c ∈ List.zipWith flipChunk fs cs, ∀ b ∈ c, b < 256 := by
  induction fs generalizing cs with
  | nil => simp
  | cons f fs ih =>
    cases cs with
    | nil => simp
    | cons c cs' =>
      intro c2 hc2 b hb2
      simp only [List.zipWith_cons_cons, List.mem_cons] at hc2
      cases hc2 with
      | inl he =>
        subst he
        exact hb c (List.mem_cons_self ..) b (flipChunk_mem f c b hb2)
      | inr he =>
        exact ih cs' (fun x hx => hb x (List.mem_cons_of_mem _ hx)) c2 he b hb2

/-- C1: for every format string and every buffer of bytes whose length
matches the format's byte size, and byte orders A ≠ B, transcoding the
buffer to order B (convert assumes the input is then in order A) and
transcoding the result to order A yields the original buffer
byte-for-byte. -/
theorem c1_round_trip (A B : ByteOrder) (hAB : A ≠ B) (fmt : String)
    (fields : List Field) (buf : Bytes)
    (hp : parseFmt fmt = some fields)
    (hlen : buf.length = fieldsSize fields)
    (hbytes : ∀ b ∈ buf, b < 256) :
    (convert buf B fmt).bind (fun out => convert out A fmt) = some buf := by
  obtain ⟨cs, hcs⟩ : ∃ cs, splitFields fields buf = some cs :=
    Option.isSome_iff_exists.mp (splitFields_isSome fields buf hlen)
  have h2 := splitFields_forall₂ fields buf cs hcs
  have hflat := splitFields_flatten_eq fields buf cs hcs
  have hbc : ∀ c ∈ cs, ∀ b ∈ c, b < 256 :=
    fun c hc b hbmem => hbytes b (splitFields_mem fields buf cs hcs c hc b hbmem)
  have h1 : convert buf B fmt = some (List.zipWith flipChunk fields cs).flatten := by
    rw [convert_eq_fieldFlip B fmt fields buf hp hbytes]
    simp [fieldFlip, hcs]
  have h2' := forall₂_flipChunk fields cs h2
  have hbc2 := zipWith_flipChunk_bound fields cs hbc
  have hb2 : ∀ b ∈ (List.zipWith flipChunk fields cs).flatten, b < 256 := by
    intro b hbmem
    obtain ⟨c, hc, hx⟩ := List.mem_flatten.mp hbmem
    exact hbc2 c hc b hx
  have h3 : convert (List.zipWith flipChunk fields cs).flatten A fmt =
      some buf := by
    rw [convert_eq_fieldFlip A fmt fields _ hp hb2]
    rw [fieldFlip, splitFields_of_flatten fields _ h2']
    simp [zipWith_flipChunk_sq fields cs h2, hflat]
  rw [h1]
  exact h3

/-- C1 witness: a 4-byte big-endian int buffer, converted to big order
(input little) and back to little order, returns unchanged. -/
theorem c1_round_trip_witness :
    (convert [1, 2, 3, 4] ByteOrder.big "i").bind
      (fun out => convert out ByteOrder.little "i") = some [1, 2, 3, 4] :=
  c1_round_trip ByteOrder.little ByteOrder.big (by decide) "i"
    [Field.num 4] [1, 2, 3, 4] rfl rfl (by decide)

/-- C2 counterexample: the claim pairs the tags by SOURCE order — for
source order little it demands unpacking with the big tag and packing
with the little tag.  In the code `byte_order` is the order converted TO
and the input is assumed to be the opposite order, so a call whose source
order is little is a call with `byte_order = big` (first conjunct); that
call unpacks with the little tag and packs with the big tag (third
conjunct), not with the (big, little) pairing the claim states (second
conjunct). -/
theorem c2_tag_pairing_counterexample :
    impliedSourceOrder ByteOrder.big = ByteOrder.little ∧
    fmtTags ByteOrder.big ≠ (ByteOrder.big, ByteOrder.little) ∧
    fmtTags ByteOrder.big = (ByteOrder.little, ByteOrder.big) := by
  refine ⟨rfl, ?_, rfl⟩
  decide

/-- C2 amended: in every convert call the unpack and the pack stage use
opposite byte-order tags, paired by the DESTINATION order: the input is
unpacked with the tag of the implied source order (the opposite of
`byte_order`) and the output is packed with the tag of `byte_order`
itself; the net effect is a pure byte-order flip of every multi-byte
numeric field (independent of which of the two orders was requested, so
there is no same-order no-op path). -/
theorem c2_tag_pairing_amended (o : ByteOrder) (fmt : String)
    (fields : List Field) (buf : Bytes)
    (hp : parseFmt fmt = some fields)
    (hbytes : ∀ b ∈ buf, b < 256) :
    fmtTags o = (impliedSourceOrder o, o) ∧
    (fmtTags o).1 ≠ (fmtTags o).2 ∧
    convert buf o fmt = fieldFlip fields buf := by
  refine ⟨fmtTags_eq o, ?_, convert_eq_fieldFlip o fmt fields buf hp hbytes⟩
  cases o <;> decide

/-- C2 amended witness: concrete instance with a 4-byte int format. -/
theorem c2_tag_pairing_witness :
    fmtTags ByteOrder.little =
      (impliedSourceOrder ByteOrder.little, ByteOrder.little) ∧
    (fmtTags ByteOrder.little).1 ≠ (fmtTags ByteOrder.little).2 ∧
    convert [1, 2, 3, 4] ByteOrder.little "i" =
      fieldFlip [Field.num 4] [1, 2, 3, 4] :=
  c2_tag_pairing_amended ByteOrder.little "i" [Field.num 4] [1, 2, 3, 4]
    rfl (by decide)

theorem parseFmt_replicate_c (n : Nat) :
    parseFmt (String.mk (List.replicate n 'c')) =
      some (List.replicate n (Field.raw 1)) := by
  induction n with
  | zero => rfl
  | succ n ih =>
    show parseFmtAux (List.replicate (n + 1) 'c') none = _
    rw [List.replicate_succ]
    have hc : ('c').isDigit = false := by decide
    simp only [parseFmtAux, hc, Bool.false_eq_true, if_false]
    have hi : itemFields ((none : Option Nat).getD 1) 'c' =
        some [Field.raw 1] := rfl
    rw [hi]
    have ih2 : parseFmtAux (List.replicate n 'c') none =
        some (List.replicate n (Field.raw 1)) := ih
    rw [ih2]
    simp [List.replicate_succ]

theorem pack_unpack_raw1 (o1 o2 : ByteOrder) : ∀ buf : Bytes,
    structPack o2 (List.replicate buf.length (Field.raw 1))
      (List.zipWith (unpackField o1) (List.replicate buf.length (Field.raw 1))
        (buf.map fun b => [b])) = some buf := by
  intro buf
  induction buf with
  | nil => rfl
  | cons b rest ih =>
    simp only [List.length_cons, List.replicate_succ, List.map_cons,
      List.zipWith_cons_cons, structPack, unpackField, packField]
    rw [ih]
    simp

theorem splitFields_raw1 (buf : Bytes) :
    splitFields (List.replicate buf.length (Field.raw 1)) buf =
      some (buf.map fun b => [b]) := by
  induction buf with
  | nil => rfl
  | cons b rest ih =>
    simp only [List.length_cons, List.replicate_succ, splitFields]
    split
    · have ht : (b :: rest).take (Field.raw 1).width = [b] := rfl
      have hd : (b :: rest).drop (Field.raw 1).width = rest := rfl
      rw [ht, hd, ih]
      rfl
    · rename_i hfalse
      exact absurd (by simp [Field.width]) hfalse

/-- C8: raw byte fields pass through convert unchanged regardless of the
declared order.  First conjunct: under the `*` fallback convert is the
identity on any buffer, for either requested order (field-wise pass
through, not a whole-buffer reversal).  Second conjunct: the fallback
format synthesized for an N-byte buffer parses as N single-byte opaque
fields.  Third conjunct: one raw field, unpacked with any tag and packed
with any tag, is copied byte-for-byte. -/
theorem c8_raw_identity (o : ByteOrder) (buf : Bytes) :
    convert buf o "*" = some buf ∧
    parseFmt (String.mk (List.replicate buf.length 'c')) =
      some (List.replicate buf.length (Field.raw 1)) ∧
    ∀ (o1 o2 : ByteOrder) (bs : Bytes),
      packField o2 (Field.raw bs.length)
        (unpackField o1 (Field.raw bs.length) bs) = some bs := by
  refine ⟨?_, parseFmt_replicate_c buf.length, ?_⟩
  · have h0 : convert buf o "*" =
        (match parseFmt (String.mk (List.replicate buf.length 'c')) with
         | none => none
         | some fields =>
           match structUnpack (fmtTags o).1 fields buf with
           | none => none
           | some data => structPack (fmtTags o).2 fields data) := rfl
    rw [h0, parseFmt_replicate_c buf.length]
    have h1 : structUnpack (fmtTags o).1 (List.replicate buf.length (Field.raw 1))
        buf =
        some (List.zipWith (unpackField (fmtTags o).1)
          (List.replicate buf.length (Field.raw 1)) (buf.map fun b => [b])) := by
      rw [structUnpack, splitFields_raw1 buf]
      rfl
    show (match structUnpack (fmtTags o).1
            (List.replicate buf.length (Field.raw 1)) buf with
          | none => none
          | some data =>
            structPack (fmtTags o).2 (List.replicate buf.length (Field.raw 1))
              data) = some buf
    rw [h1]
    exact pack_unpack_raw1 (fmtTags o).1 (fmtTags o).2 buf
  · intro o1 o2 bs
    simp [unpackField, packField]

/-! ## Format-string parser lemmas -/

theorem parseFmtAux_append (a : List Char) : ∀ (acc : Option Nat)
    (fa : List Field) (b : List Char), parseFmtAux a acc = some fa →
    parseFmtAux (a ++ b) acc = (parseFmtAux b none).map (fa ++ ·) := by
  induction a with
  | nil =>
    intro acc fa b h
    cases acc with
    | none =>
      have h2 : ([] : List Field) = fa := Option.some.inj h
      subst h2
      cases hb : parseFmtAux b none <;> simp [hb]
    | some k => exact Option.noConfusion h
  | cons ch rest ih =>
    intro acc fa b h
    by_cases hdig : ch.isDigit
    · simp only [parseFmtAux, hdig, if_true, List.cons_append] at h ⊢
      exact ih _ _ _ h
    · simp only [parseFmtAux, hdig, Bool.false_eq_true, if_false,
        List.cons_append] at h ⊢
      cases hit : itemFields (acc.getD 1) ch with
      | none => rw [hit] at h; exact Option.noConfusion h
      | some fs =>
        simp only [hit] at h ⊢
        obtain ⟨fa2, hfa2, rfl⟩ := Option.map_eq_some'.mp h
        have hih := ih none fa2 b hfa2
        simp only [List.append_eq] at hih ⊢
        rw [hih, Option.map_map]
        cases hb : parseFmtAux b none <;>
          simp [hb, Function.comp, List.append_assoc]

theorem parseFmtAux_ne_brace (a : List Char) : ∀ (acc : Option Nat)
    (fa : List Field), parseFmtAux a acc = some fa →
    ∀ c ∈ a, c ≠ '{' := by
  induction a with
  | nil => intro _ _ _ c hc; exact absurd hc (List.not_mem_nil c)
  | cons ch rest ih =>
    intro acc fa h c hc
    by_cases hdig : ch.isDigit
    · simp only [parseFmtAux, hdig, if_true] at h
      rcases List.mem_cons.mp hc with rfl | hmem
      · intro he; rw [he] at hdig; exact absurd hdig (by decide)
      · exact ih _ _ h c hmem
    · simp only [parseFmtAux, hdig, Bool.false_eq_true, if_false] at h
      cases hit : itemFields (acc.getD 1) ch with
      | none => rw [hit] at h; exact Option.noConfusion h
      | some fs =>
        rw [hit] at h
        obtain ⟨fa2, hfa2, rfl⟩ := Option.map_eq_some'.mp h
        rcases List.mem_cons.mp hc with rfl | hmem
        · intro he; rw [he] at hit
          simp [itemFields, codeSize] at hit
        · exact ih _ _ hfa2 c hmem

theorem calcsize_some (s : String) (n : Nat) (h : calcsize s = some n) :
    ∃ fs, parseFmt s = some fs ∧ fieldsSize fs = n := by
  simpa [calcsize, Option.map_eq_some'] using h

theorem calcsize_append (s t : String) (m n : Nat) (hs : calcsize s = some m)
    (ht : calcsize t = some n) : calcsize (s ++ t) = some (m + n) := by
  obtain ⟨fs, hfs, rfl⟩ := calcsize_some s m hs
  obtain ⟨ft, hft, rfl⟩ := calcsize_some t n ht
  have hpa := parseFmtAux_append s.data none fs t.data hfs
  have hft2 : parseFmtAux t.data none = some ft := hft
  rw [hft2] at hpa
  simp only [Option.map_some'] at hpa
  have hd : (s ++ t).data = s.data ++ t.data := String.data_append s t
  simp only [calcsize, parseFmt, hd, hpa, Option.map_some']
  simp [fieldsSize]

theorem calcsize_pyStrMulN (p : String) (w : Nat) (hp : calcsize p = some w) :
    ∀ n, calcsize (pyStrMulN n p) = some (n * w) := by
  intro n
  induction n with
  | zero => simp [pyStrMulN]; rfl
  | succ n ih =>
    have := calcsize_append p (pyStrMulN n p) w (n * w) hp ih
    simp only [pyStrMulN]
    rw [this]
    ring_nf

theorem calcsize_ne_brace (s : String) (n : Nat) (h : calcsize s = some n) :
    ∀ c ∈ s.data, c ≠ '{' := by
  obtain ⟨fs, hfs, _⟩ := calcsize_some s n h
  exact parseFmtAux_ne_brace s.data none fs hfs

/-! ## fmtSubst lemmas -/

theorem fmtSubst_cons_ne (r : List Char) (c : Char) (h : c ≠ '{') :
    ∀ cs, fmtSubst r (c :: cs) = c :: fmtSubst r cs := by
  intro cs
  match cs with
  | [] => rfl
  | [d] => rfl
  | d :: e :: rest =>
    simp only [fmtSubst]
    rw [if_neg (fun hand => h hand.1)]

theorem fmtSubst_no_brace (r : List Char) : ∀ (cs : List Char),
    (∀ c ∈ cs, c ≠ '{') → fmtSubst r cs = cs := by
  intro cs
  induction cs with
  | nil => intro _; rfl
  | cons c rest ih =>
    intro h
    rw [fmtSubst_cons_ne r c (h c (List.mem_cons_self ..)) rest]
    rw [ih fun x hx => h x (List.mem_cons_of_mem _ hx)]

theorem fmtSubst_mid (r : List Char) (b : List Char)
    (hb : ∀ c ∈ b, c ≠ '{') : ∀ (a : List Char), (∀ c ∈ a, c ≠ '{') →
    fmtSubst r (a ++ '{' :: '0' :: '}' :: b) = a ++ r ++ b := by
  intro a
  induction a with
  | nil =>
    intro _
    have h4 : fmtSubst r ('{' :: '0' :: '}' :: b) = r ++ fmtSubst r b := by
      simp [fmtSubst]
    simp only [List.nil_append, h4, fmtSubst_no_brace r b hb]
  | cons c rest ih =>
    intro h
    rw [List.cons_append,
      fmtSubst_cons_ne r c (h c (List.mem_cons_self ..)),
      ih fun x hx => h x (List.mem_cons_of_mem _ hx)]
    simp

/-! ## Token and loop lemmas -/

theorem pySplit_ne_nil (sep : Char) (cs : List Char) : pySplit sep cs ≠ [] := by
  cases cs with
  | nil => simp [pySplit]
  | cons c rest =>
    have h1 : pySplit sep (c :: rest) =
        match pySplit sep rest with
        | [] => [[]]
        | g :: gs => if c = sep then [] :: g :: gs else (c :: g) :: gs := rfl
    rw [h1]
    cases pySplit sep rest with
    | nil => simp
    | cons g gs => by_cases hcs : c = sep <;> simp [hcs]

theorem genStep_eq (i : Nat) (st : LoopSt) (tok : String) :
    genStep i st tok = genStepParts i st (tokPattern tok) (tokCount tok) := by
  unfold genStep tokPattern tokCount tokParts
  cases h : pySplit ':' tok.data with
  | nil => exact absurd h (pySplit_ne_nil ':' tok.data)
  | cons p gs => cases gs <;> rfl

theorem validFixedTok_expansion (t : String) (h : validFixedTok t) :
    calcsize (tokExpansion t) = some (tokCountVal t * tokWidth t) := by
  obtain ⟨h1, h2⟩ := h
  obtain ⟨w, hw⟩ := Option.isSome_iff_exists.mp h1
  have hwid : tokWidth t = w := by simp [tokWidth, hw]
  cases hc : tokCount t with
  | none =>
    have hexp : tokExpansion t = tokPattern t := by simp [tokExpansion, hc]
    have hcv : tokCountVal t = 1 := by simp [tokCountVal, hc]
    rw [hexp, hcv, hwid, one_mul]
    exact hw
  | some c =>
    rw [hc] at h2
    obtain ⟨n, hn, _⟩ := h2
    have hexp : tokExpansion t = pyStrMulN n (tokPattern t) := by
      simp [tokExpansion, hc, hn, pyStrMul, Int.toNat_natCast]
    have hcv : tokCountVal t = n := by
      simp [tokCountVal, hc, hn, Int.toNat_natCast]
    rw [hexp, hcv, hwid]
    exact calcsize_pyStrMulN _ _ hw n

theorem genStep_fixed (i : Nat) (st : LoopSt) (t : String)
    (h : validFixedTok t) :
    genStep i st t = .ok ⟨st.fmt ++ tokExpansion t,
      st.cumsize + tokCountVal t * tokWidth t,
      st.specialPattern, st.specialIndex⟩ := by
  rw [genStep_eq]
  obtain ⟨h1, h2⟩ := h
  obtain ⟨w, hw⟩ := Option.isSome_iff_exists.mp h1
  have hwid : tokWidth t = w := by simp [tokWidth, hw]
  cases hc : tokCount t with
  | none =>
    have hexp : tokExpansion t = tokPattern t := by simp [tokExpansion, hc]
    have hcv : tokCountVal t = 1 := by simp [tokCountVal, hc]
    rw [hexp, hcv, hwid, one_mul]
    simp only [genStepParts, hw]
  | some c =>
    rw [hc] at h2
    obtain ⟨n, hn, hlast⟩ := h2
    have hcne : c ≠ "" := by
      intro he
      rw [he] at hn
      exact Option.noConfusion hn
    obtain ⟨last, hl⟩ : ∃ l, c.data.getLast? = some l := by
      cases hg : c.data.getLast? with
      | none =>
        have hnil : c.data = [] := List.getLast?_eq_none_iff.mp hg
        exact absurd (String.ext hnil) hcne
      | some l => exact ⟨l, rfl⟩
    have hlne : last ≠ '*' := fun he => hlast (by rw [hl, he])
    have hmul : pyStrMul ((n : Int)) (tokPattern t) =
        pyStrMulN n (tokPattern t) := by
      simp [pyStrMul, Int.toNat_natCast]
    have hcs : calcsize (pyStrMul ((n : Int)) (tokPattern t)) =
        some (n * w) := by
      rw [hmul]
      exact calcsize_pyStrMulN _ _ hw n
    have hexp : tokExpansion t = pyStrMulN n (tokPattern t) := by
      simp [tokExpansion, hc, hn, pyStrMul, Int.toNat_natCast]
    have hcv : tokCountVal t = n := by
      simp [tokCountVal, hc, hn, Int.toNat_natCast]
    rw [hexp, hcv, hwid]
    simp only [genStepParts, hl, hn]
    rw [if_neg hlne, hcs, hmul]

theorem genStep_wild (i : Nat) (st : LoopSt) (t : String)
    (h : isWildTok t) :
    genStep i st t =
      if spTruthy st.specialPattern then Except.error PyErr.multipleWildcards
      else Except.ok ⟨st.fmt ++ "\x7b0\x7d", st.cumsize,
        some (tokPattern t), some i⟩ := by
  rw [genStep_eq]
  unfold isWildTok at h
  cases hc : tokCount t with
  | none => rw [hc] at h; exact absurd h (by simp)
  | some c =>
    rw [hc] at h
    have hl : c.data.getLast? = some '*' := by
      simpa using h
    simp only [genStepParts, hl]
    rw [if_pos trivial]

theorem star_not_validFixedTok : ¬ validFixedTok "*" := by
  intro h
  exact absurd h.1 (by decide)

theorem isWildTok_star_count : isWildTok "*" = false := by decide

theorem calcsize_concatExp (toks : List String)
    (hv : ∀ t ∈ toks, validFixedTok t) :
    calcsize (concatExp toks) = some (tokensSize toks) := by
  induction toks with
  | nil =>
    show calcsize "" = some (tokensSize [])
    rfl
  | cons t ts ih =>
    have h1 := validFixedTok_expansion t (hv t (List.mem_cons_self ..))
    have h2 := ih fun x hx => hv x (List.mem_cons_of_mem _ hx)
    have h3 := calcsize_append _ _ _ _ h1 h2
    simp only [concatExp, tokensSize, List.map_cons, List.sum_cons]
    exact h3

theorem genLoop_append_fixed (pre : List String)
    (hv : ∀ t ∈ pre, validFixedTok t) : ∀ (i : Nat) (st : LoopSt)
    (rest : List String),
    genLoop i st (pre ++ rest) =
      genLoop (i + pre.length) ⟨st.fmt ++ concatExp pre,
        st.cumsize + tokensSize pre, st.specialPattern,
        st.specialIndex⟩ rest := by
  induction pre with
  | nil =>
    intro i st rest
    have h1 : st.fmt ++ concatExp [] = st.fmt := String.append_empty st.fmt
    have h2 : st.cumsize + tokensSize [] = st.cumsize := rfl
    rw [List.nil_append, h1, h2, List.length_nil, Nat.add_zero]
  | cons t pre ih =>
    intro i st rest
    have hval : validFixedTok t := hv t (List.mem_cons_self ..)
    rw [List.cons_append]
    show (match genStep i st t with
          | Except.error e => Except.error e
          | Except.ok st2 => genLoop (i + 1) st2 (pre ++ rest)) = _
    rw [genStep_fixed i st t hval]
    show genLoop (i + 1) _ (pre ++ rest) = _
    rw [ih (fun x hx => hv x (List.mem_cons_of_mem _ hx)) (i + 1) _ rest]
    have hfmt : (st.fmt ++ tokExpansion t) ++ concatExp pre =
        st.fmt ++ concatExp (t :: pre) := by
      rw [String.append_assoc]
      rfl
    have hcs : (st.cumsize + tokCountVal t * tokWidth t) + tokensSize pre =
        st.cumsize + tokensSize (t :: pre) := by
      simp only [tokensSize, List.map_cons, List.sum_cons]
      omega
    have hlen : (i + 1) + pre.length = i + (t :: pre).length := by
      simp only [List.length_cons]
      omega
    rw [hfmt, hcs, hlen]

theorem genLoop_wild_error (mid : List String)
    (hmid : ∀ t ∈ mid, validFixedTok t) (w2 : String) (h2 : isWildTok w2)
    (tail : List String) (i : Nat) (st : LoopSt)
    (hsp : spTruthy st.specialPattern) :
    genLoop i st (mid ++ w2 :: tail) = .error .multipleWildcards := by
  rw [genLoop_append_fixed mid hmid i st (w2 :: tail)]
  show (match genStep (i + mid.length) ⟨st.fmt ++ concatExp mid,
          st.cumsize + tokensSize mid, st.specialPattern, st.specialIndex⟩ w2 with
        | Except.error e => Except.error e
        | Except.ok st2 => genLoop (i + mid.length + 1) st2 tail) = _
  rw [genStep_wild _ _ _ h2]
  rw [if_pos hsp]

theorem genCheck_none_ok (fmt : String) (fs0 : List String) (n : Nat)
    (hc : calcsize fmt = some n) :
    genCheck fmt fs0 none = .ok (fmt, fs0) := by
  unfold genCheck
  rw [hc]

theorem genCheck_match_ok (fmt : String) (fs0 : List String) (sz n : Nat)
    (hc : calcsize fmt = some n) (hsz : sz = n) :
    genCheck fmt fs0 (some sz) = .ok (fmt, fs0) := by
  unfold genCheck
  rw [hc]
  show (if sz ≠ 0 ∧ sz ≠ n then Except.error (PyErr.sizeMismatch sz n)
        else Except.ok (fmt, fs0)) = Except.ok (fmt, fs0)
  rw [if_neg]
  intro hand
  exact hand.2 hsz

theorem genCheck_mismatch (fmt : String) (fs0 : List String) (sz n : Nat)
    (hc : calcsize fmt = some n) (hsz0 : sz ≠ 0) (hszn : sz ≠ n) :
    genCheck fmt fs0 (some sz) = .error (.sizeMismatch sz n) := by
  unfold genCheck
  rw [hc]
  show (if sz ≠ 0 ∧ sz ≠ n then Except.error (PyErr.sizeMismatch sz n)
        else Except.ok (fmt, fs0)) = Except.error (PyErr.sizeMismatch sz n)
  rw [if_pos ⟨hsz0, hszn⟩]

theorem genCheck_ok_inv (fmt : String) (fs0 : List String) (sz : Nat)
    (fmt2 : String) (fs2 : List String)
    (h : genCheck fmt fs0 (some sz) = .ok (fmt2, fs2)) :
    fmt2 = fmt ∧ fs2 = fs0 ∧ ∃ n, calcsize fmt = some n ∧ (sz = 0 ∨ sz = n) := by
  unfold genCheck at h
  cases hc : calcsize fmt with
  | none => rw [hc] at h; exact Except.noConfusion h
  | some n =>
    rw [hc] at h
    have h4 : (if sz ≠ 0 ∧ sz ≠ n then Except.error (PyErr.sizeMismatch sz n)
        else Except.ok (fmt, fs0)) = Except.ok (fmt2, fs2) := h
    clear h
    split at h4
    · exact Except.noConfusion h4
    · rename_i hcond
      have hp := Except.ok.inj h4
      have h1 : fmt = fmt2 := congrArg Prod.fst hp
      have h2 : fs0 = fs2 := congrArg Prod.snd hp
      refine ⟨h1.symm, h2.symm, n, rfl, ?_⟩
      by_cases hz : sz = 0
      · exact Or.inl hz
      · by_cases hn : sz = n
        · exact Or.inr hn
        · exact absurd ⟨hz, hn⟩ hcond

theorem genLoop_one_wild (pre post : List String) (wtok : String)
    (hpre : ∀ t ∈ pre, validFixedTok t) (hpost : ∀ t ∈ post, validFixedTok t)
    (hw : isWildTok wtok) :
    genLoop 0 ⟨"", 0, none, none⟩ (pre ++ wtok :: post) =
      .ok ⟨concatExp pre ++ "\x7b0\x7d" ++ concatExp post,
        tokensSize pre + tokensSize post, some (tokPattern wtok),
        some pre.length⟩ := by
  rw [genLoop_append_fixed pre hpre 0 _ (wtok :: post)]
  have hA : ("" : String) ++ concatExp pre = concatExp pre :=
    String.empty_append _
  rw [hA, Nat.zero_add, Nat.zero_add]
  show (match genStep pre.length
          ⟨concatExp pre, tokensSize pre, none, none⟩ wtok with
        | Except.error e => Except.error e
        | Except.ok st2 => genLoop (pre.length + 1) st2 post) = _
  rw [genStep_wild _ _ _ hw]
  rw [if_neg (by simp [spTruthy])]
  show genLoop (pre.length + 1)
      ⟨concatExp pre ++ "\x7b0\x7d", tokensSize pre,
        some (tokPattern wtok), some pre.length⟩ post = _
  have h6 := genLoop_append_fixed post hpost (pre.length + 1)
    ⟨concatExp pre ++ "\x7b0\x7d", tokensSize pre,
      some (tokPattern wtok), some pre.length⟩ []
  rw [List.append_nil] at h6
  rw [h6]
  rfl

theorem gen_one_wild_ne_fallback (pre post : List String) (wtok : String)
    (hw : isWildTok wtok) : pre ++ wtok :: post ≠ ["*"] := by
  intro he
  have h1 : (pre ++ wtok :: post).length = 1 := by rw [he]; rfl
  simp only [List.length_append, List.length_cons] at h1
  have hp0 : pre.length = 0 := by omega
  have hq0 : post.length = 0 := by omega
  obtain rfl := List.length_eq_zero.mp hp0
  obtain rfl := List.length_eq_zero.mp hq0
  simp only [List.nil_append] at he
  have hws : wtok = "*" := by simpa using he
  rw [hws, isWildTok_star_count] at hw
  exact Bool.noConfusion hw

/-- C3: with exactly one wildcard token and a supplied total size whose
remainder after the fixed tokens is nonnegative and divisible by the
wildcard pattern's width, compile resolves the count to
remaining / width and produces the flat format with the wildcard pattern
repeated that many times at the wildcard's position (the witness
instantiates the spec's example: tokens ["i", "4s:*"] with total size 12
give "i4s4s"). -/
theorem c3_wildcard_resolution (pre post : List String) (wtok : String)
    (w sz : Nat)
    (hpre : ∀ t ∈ pre, validFixedTok t) (hpost : ∀ t ∈ post, validFixedTok t)
    (hw : isWildTok wtok) (hpne : tokPattern wtok ≠ "")
    (hcw : calcsize (tokPattern wtok) = some w) (hw0 : w ≠ 0)
    (hfix : tokensSize pre + tokensSize post ≤ sz)
    (hdvd : w ∣ sz - (tokensSize pre + tokensSize post)) :
    gen_format_string (pre ++ wtok :: post) (some sz) false =
      .ok (concatExp pre ++
            pyStrMulN ((sz - (tokensSize pre + tokensSize post)) / w)
              (tokPattern wtok) ++ concatExp post,
           pre ++ wtok :: post) := by
  have hne := gen_one_wild_ne_fallback pre post wtok hw
  rw [gen_format_string, if_neg hne,
    genLoop_one_wild pre post wtok hpre hpost hw]
  show genFinish (pre ++ wtok :: post) (some sz) false
      ⟨concatExp pre ++ "\x7b0\x7d" ++ concatExp post,
        tokensSize pre + tokensSize post, some (tokPattern wtok),
        some pre.length⟩ = _
  have hsp : spTruthy (some (tokPattern wtok)) = true := by
    simp [spTruthy, hpne]
  have hrem : ((sz : Int) - ((tokensSize pre + tokensSize post : Nat) : Int)) =
      ((sz - (tokensSize pre + tokensSize post) : Nat) : Int) :=
    (Int.ofNat_sub hfix).symm
  have hmodz : ((sz - (tokensSize pre + tokensSize post) : Nat) : Int) %
      (w : Int) = 0 := by
    obtain ⟨c, hc⟩ := hdvd
    rw [← Int.natCast_mod, hc, Nat.mul_mod_right]
    rfl
  have hdiv : Int.fdiv
      ((sz - (tokensSize pre + tokensSize post) : Nat) : Int) (w : Int) =
      (((sz - (tokensSize pre + tokensSize post)) / w : Nat) : Int) := by
    rw [Int.fdiv_eq_ediv _ (Int.natCast_nonneg w)]
    exact (Int.natCast_div _ _).symm
  simp only [genFinish, hsp, if_true, Option.getD_some, hcw]
  rw [if_neg hw0, hrem, hmodz, hdiv]
  rw [if_neg (by simp)]
  have hmul : pyStrMul
      (((sz - (tokensSize pre + tokensSize post)) / w : Nat) : Int)
      (tokPattern wtok) =
      pyStrMulN ((sz - (tokensSize pre + tokensSize post)) / w)
        (tokPattern wtok) := by
    show pyStrMulN
      ((((sz - (tokensSize pre + tokensSize post)) / w : Nat) : Int)).toNat
      (tokPattern wtok) = _
    rw [Int.toNat_natCast]
  rw [hmul]
  have hA : calcsize (concatExp pre) = some (tokensSize pre) :=
    calcsize_concatExp pre hpre
  have hB : calcsize (concatExp post) = some (tokensSize post) :=
    calcsize_concatExp post hpost
  have hAnb : ∀ c ∈ (concatExp pre).data, c ≠ '{' :=
    calcsize_ne_brace _ _ hA
  have hBnb : ∀ c ∈ (concatExp post).data, c ≠ '{' :=
    calcsize_ne_brace _ _ hB
  have hR : calcsize (pyStrMulN
      ((sz - (tokensSize pre + tokensSize post)) / w) (tokPattern wtok)) =
      some (((sz - (tokensSize pre + tokensSize post)) / w) * w) :=
    calcsize_pyStrMulN _ _ hcw _
  have hdata : (concatExp pre ++ "\x7b0\x7d" ++ concatExp post).data =
      (concatExp pre).data ++ ('{' :: '0' :: '}' :: (concatExp post).data) := by
    rw [String.data_append, String.data_append]
    have h9 : ("\x7b0\x7d" : String).data = ['{', '0', '}'] := rfl
    rw [h9]
    simp [List.append_assoc]
  have hsub : fmtSubst
      (pyStrMulN ((sz - (tokensSize pre + tokensSize post)) / w)
        (tokPattern wtok)).data
      (concatExp pre ++ "\x7b0\x7d" ++ concatExp post).data =
      (concatExp pre).data ++
        (pyStrMulN ((sz - (tokensSize pre + tokensSize post)) / w)
          (tokPattern wtok)).data ++ (concatExp post).data := by
    rw [hdata]
    exact fmtSubst_mid _ _ hBnb _ hAnb
  rw [hsub]
  have hmk : String.mk ((concatExp pre).data ++
      (pyStrMulN ((sz - (tokensSize pre + tokensSize post)) / w)
        (tokPattern wtok)).data ++ (concatExp post).data) =
      concatExp pre ++
        pyStrMulN ((sz - (tokensSize pre + tokensSize post)) / w)
          (tokPattern wtok) ++ concatExp post := by
    apply String.ext
    simp [String.data_append]
  rw [hmk]
  rw [if_neg (by simp)]
  have hAR := calcsize_append _ _ _ _ hA hR
  have hARB := calcsize_append _ _ _ _ hAR hB
  have hdw : ((sz - (tokensSize pre + tokensSize post)) / w) * w =
      sz - (tokensSize pre + tokensSize post) := Nat.div_mul_cancel hdvd
  have hsz2 : sz = tokensSize pre +
      ((sz - (tokensSize pre + tokensSize post)) / w) * w +
      tokensSize post := by
    rw [hdw]
    omega
  exact genCheck_match_ok _ _ _ _ hARB hsz2

/-- C3 witness: the spec's example, tokens ["i", "4s:*"] with total size
12 resolve to the flat format "i4s4s" with the token list unchanged. -/
theorem c3_wildcard_resolution_witness :
    gen_format_string ["i", "4s:*"] (some 12) false =
      .ok ("i4s4s", ["i", "4s:*"]) :=
  c3_wildcard_resolution ["i"] [] "4s:*" 4 12
    (by intro t ht; simp only [List.mem_singleton] at ht; subst ht
        exact ⟨by decide, trivial⟩)
    (by intro t ht; exact absurd ht (List.not_mem_nil t))
    (by decide) (by decide) (by decide) (by decide) (by decide) (by decide)

theorem genLoop_all_fixed (toks : List String)
    (hv : ∀ t ∈ toks, validFixedTok t) :
    genLoop 0 ⟨"", 0, none, none⟩ toks =
      .ok ⟨concatExp toks, tokensSize toks, none, none⟩ := by
  have h6 := genLoop_append_fixed toks hv 0 ⟨"", 0, none, none⟩ []
  rw [List.append_nil] at h6
  rw [h6]
  show genLoop (0 + toks.length)
      ⟨"" ++ concatExp toks, 0 + tokensSize toks, none, none⟩ [] = _
  have hA : ("" : String) ++ concatExp toks = concatExp toks :=
    String.empty_append _
  rw [hA]
  simp only [Nat.zero_add]
  rfl

theorem genFinish_some_ok_size (formats : List String) (e : Bool)
    (st : LoopSt) (sz : Nat) (fmt : String) (fs : List String)
    (h : genFinish formats (some sz) e st = .ok (fmt, fs)) :
    ∃ n, calcsize fmt = some n ∧ (sz = 0 ∨ sz = n) := by
  simp only [genFinish] at h
  split at h
  · cases hcp : calcsize (st.specialPattern.getD "") with
    | none => rw [hcp] at h; exact Except.noConfusion h
    | some cz =>
      rw [hcp] at h
      replace h : (if cz = 0 then Except.error PyErr.zeroDivision
          else if ((sz : Int) - (st.cumsize : Int)) % (cz : Int) ≠ 0 then
            Except.error PyErr.divisionError
          else genCheck
            (String.mk (fmtSubst
              (pyStrMul (Int.fdiv ((sz : Int) - (st.cumsize : Int)) (cz : Int))
                (st.specialPattern.getD "")).data st.fmt.data))
            (if e = true then
              match st.specialIndex with
              | some si => formats.set si (String.mk
                  (starSubst (toString (Int.fdiv ((sz : Int) -
                    (st.cumsize : Int)) (cz : Int))).data
                    ((formats.getD si "").data)))
              | none => formats
            else formats) (some sz)) = Except.ok (fmt, fs) := h
      by_cases hcz : cz = 0
      · rw [if_pos hcz] at h
        exact Except.noConfusion h
      · rw [if_neg hcz] at h
        by_cases hm : ((sz : Int) - (st.cumsize : Int)) % (cz : Int) ≠ 0
        · rw [if_pos hm] at h
          exact Except.noConfusion h
        · rw [if_neg hm] at h
          obtain ⟨h1, _, n, hn, hor⟩ := genCheck_ok_inv _ _ _ _ _ h
          exact ⟨n, by rw [h1]; exact hn, hor⟩
  · obtain ⟨h1, _, n, hn, hor⟩ := genCheck_ok_inv _ _ _ _ _ h
    exact ⟨n, by rw [h1]; exact hn, hor⟩

/-- C4 counterexample: the claim requires a DivisionError whenever the
remaining byte count is negative, including a negative remainder that is
an exact multiple of the wildcard width.  For tokens ["i", "4s:*"] with
total size 0 the remainder is -4, a multiple of 4, and Python's floor
modulo gives (-4) % 4 == 0, so no DivisionError is raised; with the final
size check also skipped for a falsy size of 0, the call returns the
format "i" successfully. -/
theorem c4_negative_remainder_counterexample :
    gen_format_string ["i", "4s:*"] (some 0) false =
      .ok ("i", ["i", "4s:*"]) ∧
    gen_format_string ["i", "4s:*"] (some 0) false ≠
      .error .divisionError := by
  refine ⟨rfl, fun h => ?_⟩
  have h2 : (Except.ok ("i", ["i", "4s:*"]) :
      Except PyErr (String × List String)) = .error .divisionError := h
  exact Except.noConfusion h2

/-- C4 amended: with exactly one wildcard token and a supplied total
size, compile fails with DivisionError exactly when the remaining byte
count is not evenly divisible by the wildcard pattern's width under
Python's floor modulo; a negative remainder that is an exact multiple of
the width raises no DivisionError (it instead reaches the final size
check, which is skipped when the total size is 0). -/
theorem c4_division_error_amended (pre post : List String) (wtok : String)
    (w sz : Nat) (e : Bool)
    (hpre : ∀ t ∈ pre, validFixedTok t) (hpost : ∀ t ∈ post, validFixedTok t)
    (hw : isWildTok wtok) (hpne : tokPattern wtok ≠ "")
    (hcw : calcsize (tokPattern wtok) = some w) (hw0 : w ≠ 0)
    (hmod : ((sz : Int) - ((tokensSize pre + tokensSize post : Nat) : Int)) %
      (w : Int) ≠ 0) :
    gen_format_string (pre ++ wtok :: post) (some sz) e =
      .error .divisionError := by
  have hne := gen_one_wild_ne_fallback pre post wtok hw
  rw [gen_format_string, if_neg hne,
    genLoop_one_wild pre post wtok hpre hpost hw]
  show genFinish (pre ++ wtok :: post) (some sz) e
      ⟨concatExp pre ++ "\x7b0\x7d" ++ concatExp post,
        tokensSize pre + tokensSize post, some (tokPattern wtok),
        some pre.length⟩ = _
  have hsp : spTruthy (some (tokPattern wtok)) = true := by
    simp [spTruthy, hpne]
  simp only [genFinish, hsp, if_true, Option.getD_some, hcw]
  rw [if_neg hw0, if_pos hmod]

/-- C4 amended witness: the spec's example, tokens ["i", "4s:*"] with
total size 9 leave remainder 5, not divisible by 4, so compile fails with
DivisionError. -/
theorem c4_division_error_witness :
    gen_format_string ["i", "4s:*"] (some 9) false =
      .error .divisionError :=
  c4_division_error_amended ["i"] [] "4s:*" 4 9 false
    (by intro t ht; simp only [List.mem_singleton] at ht; subst ht
        exact ⟨by decide, trivial⟩)
    (by intro t ht; exact absurd ht (List.not_mem_nil t))
    (by decide) (by decide) (by decide) (by decide) (by decide)

/-- C5 counterexample: the claim covers every supplied total size
including 0, but the final check `if size and size != fmt_size` is
skipped for the falsy size 0: tokens ["i"] with total size 0 return the
format "i" successfully although its implied byte size 4 differs from
the supplied 0. -/
theorem c5_size_zero_counterexample :
    gen_format_string ["i"] (some 0) false = .ok ("i", ["i"]) ∧
    calcsize "i" = some 4 ∧ (0 : Nat) ≠ 4 := by
  exact ⟨rfl, rfl, by decide⟩

/-- C5 amended: the final size invariant holds for every POSITIVE
supplied total size: first conjunct, whenever compile returns a format
for a non-fallback descriptor with a nonzero supplied size, the format's
implied byte size equals that size (so a mismatch never returns
silently); second conjunct, for valid wildcard-free descriptors a
nonzero size that differs from the descriptor's byte size fails with
SizeMismatch reporting expected versus computed; third conjunct, the
spec's example ["i", "i"] with total size 10 fails with
SizeMismatch (expected 10, got 8).  At total size 0 the check is
skipped (see the counterexample). -/
theorem c5_size_mismatch_amended :
    (∀ (formats : List String) (sz : Nat) (e : Bool) (fmt : String)
      (fs : List String), formats ≠ ["*"] → sz ≠ 0 →
      gen_format_string formats (some sz) e = .ok (fmt, fs) →
      calcsize fmt = some sz) ∧
    (∀ (toks : List String) (sz : Nat) (e : Bool),
      (∀ t ∈ toks, validFixedTok t) → sz ≠ 0 → sz ≠ tokensSize toks →
      gen_format_string toks (some sz) e =
        .error (.sizeMismatch sz (tokensSize toks))) ∧
    gen_format_string ["i", "i"] (some 10) false =
      .error (.sizeMismatch 10 8) := by
  refine ⟨?_, ?_, rfl⟩
  · intro formats sz e fmt fs hne hsz hok
    rw [gen_format_string, if_neg hne] at hok
    cases hl : genLoop 0 ⟨"", 0, none, none⟩ formats with
    | error er => rw [hl] at hok; exact Except.noConfusion hok
    | ok st =>
      rw [hl] at hok
      obtain ⟨n, hn, hor⟩ := genFinish_some_ok_size formats e st sz fmt fs hok
      rcases hor with h0 | hn2
      · exact absurd h0 hsz
      · rw [hn2]; exact hn
  · intro toks sz e hv hsz hne2
    have hneq : toks ≠ ["*"] := by
      intro he
      subst he
      exact star_not_validFixedTok (hv "*" (List.mem_cons_self ..))
    rw [gen_format_string, if_neg hneq, genLoop_all_fixed toks hv]
    show genFinish toks (some sz) e
        ⟨concatExp toks, tokensSize toks, none, none⟩ = _
    simp only [genFinish, spTruthy, Bool.false_eq_true, if_false]
    exact genCheck_mismatch _ _ _ _ (calcsize_concatExp toks hv) hsz hne2

/-- C5 amended witness: concrete instance of the first conjunct — the
call on ["i"] with total size 4 returns "i", whose byte size is 4. -/
theorem c5_size_mismatch_witness : calcsize "i" = some 4 :=
  c5_size_mismatch_amended.1 ["i"] 4 false "i" ["i"] (by decide) (by decide)
    rfl

/-- C6: a well-formed descriptor containing two or more wildcard tokens
fails with MultipleWildcards for every supplied size and expand flag:
`pre` and `mid` are the well-formed non-wildcard tokens before the first
and between the first and the second wildcard, `tail` is arbitrary. -/
theorem c6_multiple_wildcards (pre mid tail : List String) (w1 w2 : String)
    (size : Option Nat) (e : Bool)
    (hpre : ∀ t ∈ pre, validFixedTok t) (hmid : ∀ t ∈ mid, validFixedTok t)
    (h1 : isWildTok w1) (h1p : tokPattern w1 ≠ "") (h2 : isWildTok w2) :
    gen_format_string (pre ++ w1 :: (mid ++ w2 :: tail)) size e =
      .error .multipleWildcards := by
  have hne : pre ++ w1 :: (mid ++ w2 :: tail) ≠ ["*"] := by
    intro he
    have hlen := congrArg List.length he
    simp only [List.length_append, List.length_cons, List.length_nil] at hlen
    omega
  have hloop : genLoop 0 ⟨"", 0, none, none⟩
      (pre ++ w1 :: (mid ++ w2 :: tail)) = .error .multipleWildcards := by
    rw [genLoop_append_fixed pre hpre 0 _ (w1 :: (mid ++ w2 :: tail))]
    show (match genStep (0 + pre.length)
            ⟨"" ++ concatExp pre, 0 + tokensSize pre, none, none⟩ w1 with
          | Except.error er => Except.error er
          | Except.ok st2 =>
            genLoop (0 + pre.length + 1) st2 (mid ++ w2 :: tail)) = _
    rw [genStep_wild _ _ _ h1]
    rw [if_neg (by simp [spTruthy])]
    show genLoop (0 + pre.length + 1)
        ⟨("" ++ concatExp pre) ++ "\x7b0\x7d", 0 + tokensSize pre,
          some (tokPattern w1), some (0 + pre.length)⟩
        (mid ++ w2 :: tail) = _
    exact genLoop_wild_error mid hmid w2 h2 tail _ _ (by simp [spTruthy, h1p])
  rw [gen_format_string, if_neg hne, hloop]

/-- C6 witness: the spec's example, tokens ["4s:*", "2s:*"] fail with
MultipleWildcards (here with no supplied size). -/
theorem c6_multiple_wildcards_witness :
    gen_format_string ["4s:*", "2s:*"] none false =
      .error .multipleWildcards :=
  c6_multiple_wildcards [] [] [] "4s:*" "2s:*" none false
    (by intro t ht; exact absurd ht (List.not_mem_nil t))
    (by intro t ht; exact absurd ht (List.not_mem_nil t))
    (by decide) (by decide) (by decide)

/-- C7: for every well-formed wildcard-free descriptor, compile is
deterministic (equal inputs give equal outputs; first conjunct), the
no-size call returns the concatenated token expansions with the token
list unchanged (second conjunct), and the returned flat format's byte
size is the sum over the tokens of count * width(pattern), with count
defaulting to 1 when the ":count" suffix is omitted (third conjunct;
`tokensSize` is literally that sum). -/
theorem c7_no_wildcard_deterministic_size (toks : List String)
    (hv : ∀ t ∈ toks, validFixedTok t) :
    (∀ (s1 s2 : Option Nat) (e1 e2 : Bool), s1 = s2 → e1 = e2 →
      gen_format_string toks s1 e1 = gen_format_string toks s2 e2) ∧
    (∀ e, gen_format_string toks none e = .ok (concatExp toks, toks)) ∧
    calcsize (concatExp toks) = some (tokensSize toks) := by
  refine ⟨fun s1 s2 e1 e2 hs he => by rw [hs, he], fun e => ?_,
    calcsize_concatExp toks hv⟩
  have hne : toks ≠ ["*"] := by
    intro he
    subst he
    exact star_not_validFixedTok (hv "*" (List.mem_cons_self ..))
  rw [gen_format_string, if_neg hne, genLoop_all_fixed toks hv]
  show genFinish toks none e
      ⟨concatExp toks, tokensSize toks, none, none⟩ = _
  simp only [genFinish, spTruthy, Bool.false_eq_true, if_false]
  exact genCheck_none_ok _ _ _ (calcsize_concatExp toks hv)

/-- C7 witness: the docstring's example, ["id4s:2", "f2d"] compiles to
"id4sid4sf2d" (and its byte size, 2*(4+8+4) + (4+16) = 52, is the token
sum). -/
theorem c7_no_wildcard_witness :
    gen_format_string ["id4s:2", "f2d"] none false =
      .ok ("id4sid4sf2d", ["id4s:2", "f2d"]) := by
  have hv : ∀ t ∈ ["id4s:2", "f2d"], validFixedTok t := by
    intro t ht
    simp only [List.mem_cons, List.mem_singleton] at ht
    rcases ht with rfl | rfl | h
    · exact ⟨by decide, 2, rfl, by decide⟩
    · exact ⟨by decide, trivial⟩
    · exact absurd h (List.not_mem_nil t)
  have h := (c7_no_wildcard_deterministic_size ["id4s:2", "f2d"] hv).2.1 false
  have hc : concatExp ["id4s:2", "f2d"] = "id4sid4sf2d" := by decide
  rw [hc] at h
  exact h

/-- C9: the claim says gen_format_string never mutates the caller's token
list and returns any rewritten list as a separate value.  The code's line
148 `formats[special_index] = formats[special_index].replace(...)`
assigns into the caller's list and line 156 returns that same list
object, so after an expand=True call that resolves a wildcard the
caller's list (the second result component of this embedding) differs
from the tokens that were passed in: ["i", "4s:*"] has become
["i", "4s:2"].  (main()'s `expanded_formats != formats` comparison at
line 350 can therefore never be True.) -/
theorem c9_expand_mutates_in_place :
    gen_format_string ["i", "4s:*"] (some 12) true =
      .ok ("i4s4s", ["i", "4s:2"]) ∧
    (["i", "4s:2"] : List String) ≠ ["i", "4s:*"] :=
  ⟨rfl, by decide⟩

/-- C10: a token is treated as the wildcard whenever the LAST character
of its count part is '*', not only when the count is exactly "*": the
loop body behaves identically on count part c with last character '*'
and on count part "*" (first conjunct); concretely, ["i", "4s:3*"] with
total size 12 resolves exactly like ["i", "4s:*"] (second conjunct), and
a "3*" wildcard also triggers the MultipleWildcards check (third
conjunct). -/
theorem c10_wildcard_suffix (st : LoopSt) :
    (∀ (i : Nat) (p c : String), c.data.getLast? = some '*' →
      genStepParts i st p (some c) = genStepParts i st p (some "*")) ∧
    gen_format_string ["i", "4s:3*"] (some 12) false =
      .ok ("i4s4s", ["i", "4s:3*"]) ∧
    gen_format_string ["4s:3*", "2s:*"] none false =
      .error .multipleWildcards := by
  refine ⟨?_, rfl, rfl⟩
  intro i p c hl
  simp only [genStepParts]
  rw [hl]
  rfl

/-- C10 witness: the loop body on the token "4s:3*"'s parts equals the
loop body on "4s:*"'s parts, from the empty starting state. -/
theorem c10_wildcard_suffix_witness :
    genStepParts 0 ⟨"", 0, none, none⟩ "4s" (some "3*") =
      genStepParts 0 ⟨"", 0, none, none⟩ "4s" (some "*") :=
  (c10_wildcard_suffix ⟨"", 0, none, none⟩).1 0 "4s" "3*" (by decide)

end BinConvert
